import Mathlib

/-!
# arrtillery: a verification development for `arrays.go`

A Go slice `[]T` is embedded as a `List T`; Go `int` arguments are `Int`
(the functions only compare them, there is no arithmetic that could wrap).
An operation that can hit a run-time bounds panic returns an `Option`, with
`none` standing for the panic.  Pseudo-random draws are an explicit argument.
-/

namespace Arrtillery

/-! ## Go primitives used by the source -/

/-- The slice expression `s[lo:hi]` of Go on a slice whose capacity equals its
length: it panics (`none`) unless `0 ≤ lo ≤ hi ≤ len(s)`.  Every use in
`arrays.go` has `hi ≤ len(s)` whenever `hi` is in range at all, so capacity
beyond the length is never observed. -/
def sliceExpr {T : Type} (s : List T) (lo hi : Int) : Option (List T) :=
  if 0 ≤ lo ∧ lo ≤ hi ∧ hi ≤ (s.length : Int) then
    some ((s.drop lo.toNat).take (hi.toNat - lo.toNat))
  else
    none

/-- The statement `slice[i], slice[j] = slice[j], slice[i]`: both operands are
read first (a panic when an index is out of range), then `slice[i]` and
`slice[j]` are assigned in that order. -/
def swapAt {T : Type} (slice : List T) (i j : Nat) : Option (List T) :=
  match slice[i]?, slice[j]? with
  | some a, some b => some ((slice.set i b).set j a)
  | _, _ => none

/-! ## ForEach -/

/-- The range loop of `ForEach` with `k` iterations left at index `i`: the
element at `i` is read and `s[i] = fn(v)` stored. -/
def forEachLoop {T : Type} (fn : T → T) : Nat → Nat → List T → Option (List T)
  | 0, _, s => some s
  | k + 1, i, s =>
    match s[i]? with
    | some v => forEachLoop fn k (i + 1) (s.set i (fn v))
    | none => none

/-- `ForEach` of `arrays.go`: `len(s)` iterations from index `0`.  The value is
the slice after the call. -/
def ForEach {T : Type} (s : List T) (fn : T → T) : Option (List T) :=
  forEachLoop fn s.length 0 s

/-! ## Predicate tests -/

/-- `Some` of `arrays.go`: the range loop returns `true` at the first element
on which `fn` holds, `false` when the loop runs out. -/
def Some {T : Type} (s : List T) (fn : T → Bool) : Bool :=
  match s with
  | [] => false
  | v :: rest => if fn v then true else Some rest fn

/-- `Every` of `arrays.go`: the range loop returns `false` at the first element
on which `fn` holds, `true` when the loop runs out. -/
def Every {T : Type} (s : List T) (fn : T → Bool) : Bool :=
  match s with
  | [] => true
  | v :: rest => if fn v then false else Every rest fn

/-! ## SafeSlice -/

/-- `SafeSlice` of `arrays.go`: the three clamping assignments in source order,
then the slice expression `s[start:end]`. -/
def SafeSlice {T : Type} (s : List T) (start «end» : Int) : Option (List T) :=
  let start := if start < 0 then 0 else start
  let «end» := if «end» > (s.length : Int) then (s.length : Int) else «end»
  let start := if start > «end» then «end» else start
  sliceExpr s start «end»

/-! ## Filter -/

/-- The range loop of `Filter`: `filtered[idx] = v; idx++` for each element on
which `fn` holds.  The indexed store panics when `idx` is not below
`len(filtered)`. -/
def filterLoop {T : Type} (fn : T → Bool) :
    List T → List T → Nat → Option (List T × Nat)
  | [], filtered, idx => some (filtered, idx)
  | v :: rest, filtered, idx =>
    if fn v then
      if idx < filtered.length then filterLoop fn rest (filtered.set idx v) (idx + 1)
      else none
    else filterLoop fn rest filtered idx

/-- `Filter` of `arrays.go`.  `zero` is the zero value of `T`, with which
`make([]T, len(s))` fills the buffer; the result is `filtered[:idx]`. -/
def Filter {T : Type} (zero : T) (s : List T) (fn : T → Bool) : Option (List T) :=
  match filterLoop fn s (List.replicate s.length zero) 0 with
  | some (filtered, idx) => sliceExpr filtered 0 (idx : Int)
  | none => none

/-! ## Shuffling and sampling

The generator is a function `r : Nat → Nat`: `r i` is the raw value behind the
draw made at loop index `i`, and the draw itself is `r i % (i + 1)`, which is
the contract of `Intn(i + 1)`: a value in `[0, i]`.  Each loop index is visited
once, so indexing the draws by loop index is the same as indexing them by call
order. -/

/-- The loop `for i := ...; i > 0; i-- { j := r.Intn(i + 1); swap(i, j) }`
started at index `i`. -/
def shuffleLoop {T : Type} (r : Nat → Nat) : Nat → List T → Option (List T)
  | 0, slice => some slice
  | i + 1, slice =>
    match swapAt slice (i + 1) (r (i + 1) % (i + 2)) with
    | some slice' => shuffleLoop r i slice'
    | none => none

/-- `Shuffle` of `arrays.go`: the loop starts at `len(slice) - 1` and does not
run at all on an empty slice.  The value is the slice after the call. -/
def Shuffle {T : Type} (r : Nat → Nat) (slice : List T) : Option (List T) :=
  shuffleLoop r (slice.length - 1) slice

/-- `(*rand.Rand).Shuffle(n, swap)` of the Go standard library, applied to the
swap closure of `RandomUnique`: a Fisher–Yates pass calling `swap(i, j)` with
`j` drawn from `[0, i]` for `i = n - 1` down to `1` (`n` is a length here, so
the library's `n < 0` panic cannot fire). -/
def randShuffle {T : Type} (r : Nat → Nat) (n : Nat) (slice : List T) : Option (List T) :=
  shuffleLoop r (n - 1) slice

/-- What a call of `RandomUnique` leaves behind: the caller's slice after the
call and the two returned values (`none` is Go's `nil`). -/
structure Sampled (T : Type) where
  slice : List T
  result : Option (List T)
  err : Option String
  deriving DecidableEq, Repr

/-- The message of the error `RandomUnique` returns. -/
def errTooMany : String := "n cannot be greater than the length of the slice"

/-- `RandomUnique` of `arrays.go`: the length guard, the library shuffle of the
caller's slice, then the slice expression `slice[:n]`.  `none` is a panic. -/
def RandomUnique {T : Type} (r : Nat → Nat) (slice : List T) (n : Int) : Option (Sampled T) :=
  if n > (slice.length : Int) then
    some { slice := slice, result := none, err := some errTooMany }
  else
    match randShuffle r slice.length slice with
    | none => none
    | some slice' =>
      match sliceExpr slice' 0 n with
      | none => none
      | some res => some { slice := slice', result := some res, err := none }

/-! ## Uniqueness

A Go map is embedded as an association list with one entry per key. -/

/-- The range loop of `Deduplicate`: `seen` holds the keys of the set built so
far, `result` the slice appended to. -/
def dedupLoop {T : Type} [DecidableEq T] : List T → List T → List T → List T
  | [], _, result => result
  | v :: rest, seen, result =>
    if v ∈ seen then dedupLoop rest seen result
    else dedupLoop rest (v :: seen) (result ++ [v])

/-- `Deduplicate` of `arrays.go`: the loop started from an empty set and a nil
result. -/
def Deduplicate {T : Type} [DecidableEq T] (slice : List T) : List T :=
  dedupLoop slice [] []

/-- The words of the specification for `Deduplicate`: keep the first occurrence
of each value and drop its later repeats.  Used only to compare the loop
against. -/
def firstOccurrences {T : Type} [DecidableEq T] : List T → List T
  | [] => []
  | x :: xs => x :: (firstOccurrences xs).filter (fun y => decide (y ≠ x))

/-- The statement `counts[value]++` on the association list: the entry of
`value` is incremented, and created at `0 + 1` when absent. -/
def incr {T : Type} [DecidableEq T] (value : T) : List (T × Nat) → List (T × Nat)
  | [] => [(value, 1)]
  | (k, c) :: rest => if k = value then (k, c + 1) :: rest else (k, c) :: incr value rest

/-- The first loop of `CountDuplicates`: the frequency map of the slice. -/
def buildCounts {T : Type} [DecidableEq T] : List T → List (T × Nat) → List (T × Nat)
  | [], counts => counts
  | value :: rest, counts => buildCounts rest (incr value counts)

/-- The second loop of `CountDuplicates` over the map entries in the order the
iteration happens to visit them: `duplicates++` for each `count > 1`. -/
def countOver {T : Type} : List (T × Nat) → Nat → Nat
  | [], duplicates => duplicates
  | (_, count) :: rest, duplicates =>
    if count > 1 then countOver rest (duplicates + 1) else countOver rest duplicates

/-- `CountDuplicates` of `arrays.go`, with the map iterated in the order the
entries were created. -/
def CountDuplicates {T : Type} [DecidableEq T] (slice : List T) : Nat :=
  countOver (buildCounts slice []) 0

/-! ## Calls of the callbacks

The same loops once more, writing down the arguments the callback is called
with, in call order. -/

/-- The range loop of `Some`, which also yields the elements `fn` was called
on: the loop stops calling at the first element on which `fn` holds. -/
def SomeCalls {T : Type} (s : List T) (fn : T → Bool) : Bool × List T :=
  match s with
  | [] => (false, [])
  | v :: rest =>
    if fn v then (true, [v])
    else ((SomeCalls rest fn).1, v :: (SomeCalls rest fn).2)

/-- The range loop of `ForEach` with `k` iterations left at index `i`, which
also yields the values `fn` was called on. -/
def forEachCalls {T : Type} (fn : T → T) : Nat → Nat → List T → Option (List T × List T)
  | 0, _, s => some (s, [])
  | k + 1, i, s =>
    match s[i]? with
    | some v =>
      match forEachCalls fn k (i + 1) (s.set i (fn v)) with
      | some (s', calls) => some (s', v :: calls)
      | none => none
    | none => none

/-! ## Draw vectors -/

/-- The draw vectors of `Shuffle` on a slice of length `n`: one draw
`j ∈ {0, ..., i}` for each loop index `i = 1, ..., n - 1` (component `i - 1`
of the vector is the draw made at loop index `i`). -/
@[reducible] def DrawVec (n : Nat) : Type := (i : Fin (n - 1)) → Fin (i.val + 2)

/-- The generator that makes the draws of a draw vector. -/
def toDraws {n : Nat} (d : DrawVec n) : Nat → Nat := fun i =>
  if h : 1 ≤ i ∧ i < n then (d ⟨i - 1, by omega⟩).val else 0

/-! ## SafeSlice: when the slice expression is reached out of range -/

/-- `SafeSlice` panics exactly on a negative `end`: the clamps repair a
negative `start` and an oversized `end`, and nothing else. -/
theorem SafeSlice_eq_none_iff {T : Type} (s : List T) (start «end» : Int) :
    SafeSlice s start «end» = none ↔ «end» < 0 := by
  unfold SafeSlice sliceExpr
  simp only []
  split_ifs <;> simp only [reduceCtorEq, false_iff, true_iff] <;> omega

/-- C1 (defect): on the length-3 slice `[1, 2, 3]` with `start = 0` and
`end = -1` the third clamp moves `start` to `-1` and the slice expression
`s[-1:-1]` panics, so `SafeSlice` does not return a result for every pair of
integers. -/
theorem SafeSlice_negative_end_panics :
    SafeSlice [1, 2, 3] 0 (-1) = none := by
  decide

/-! ## Every -/

/-- `Every` is `false` exactly when `fn` holds somewhere in the slice. -/
theorem Every_eq_false_iff {T : Type} (s : List T) (fn : T → Bool) :
    Every s fn = false ↔ ∃ x ∈ s, fn x = true := by
  induction s with
  | nil => simp [Every]
  | cons v rest ih =>
    unfold Every
    by_cases h : fn v = true
    · simp [h]
    · simp [h, ih]

/-- C2 (defect): on the one-element slice `[1]` with the predicate `x == 1`
every element satisfies the predicate, yet `Every` returns `false`. -/
theorem Every_all_satisfy_returns_false :
    (∀ x ∈ [1], (fun n : Nat => n == 1) x = true) ∧
      Every [1] (fun n : Nat => n == 1) = false := by
  decide

/-- C3: `Every s p` is `false` iff some element of `s` satisfies `p`, and
`true` iff `s` is empty or no element of `s` satisfies `p`. -/
theorem Every_false_iff_some_true_iff_none {T : Type} (s : List T) (p : T → Bool) :
    (Every s p = false ↔ ∃ x ∈ s, p x = true) ∧
      (Every s p = true ↔ s = [] ∨ ∀ x ∈ s, p x = false) := by
  refine ⟨Every_eq_false_iff s p, ?_⟩
  have h := Every_eq_false_iff s p
  constructor
  · intro ht
    right
    intro x hx
    by_contra hp
    have : Every s p = false := h.mpr ⟨x, hx, by simpa using hp⟩
    rw [ht] at this
    exact Bool.noConfusion this
  · intro hs
    by_contra hne
    have hf : Every s p = false := by simpa using hne
    obtain ⟨x, hx, hpx⟩ := h.mp hf
    rcases hs with hs | hs
    · subst hs
      simp at hx
    · rw [hs x hx] at hpx
      exact Bool.noConfusion hpx

/-! ## The swap and the Fisher–Yates loop -/

/-- Overwriting position `k` with `a` trades the old element at `k` for `a`. -/
theorem getElem_cons_set_perm {T : Type} (a : T) :
    ∀ (l : List T) (k : Nat) (h : k < l.length), (l[k] :: l.set k a).Perm (a :: l)
  | [], _, h => absurd h (Nat.not_lt_zero _)
  | b :: t, 0, _ => by
    simpa using List.Perm.swap a b t
  | b :: t, k + 1, h => by
    have hk : k < t.length := by simpa using h
    have ih := getElem_cons_set_perm a t k hk
    simp only [List.getElem_cons_succ, List.set_cons_succ]
    exact (List.Perm.swap b t[k] (t.set k a)).trans
      ((ih.cons b).trans (List.Perm.swap a b t))

/-- An in-range swap does not panic and permutes the slice. -/
theorem swapAt_perm {T : Type} (s : List T) (i j : Nat) (hi : i < s.length)
    (hj : j < s.length) : ∃ s', swapAt s i j = some s' ∧ s'.Perm s := by
  refine ⟨(s.set i s[j]).set j s[i], ?_, ?_⟩
  · simp [swapAt, List.getElem?_eq_getElem hi, List.getElem?_eq_getElem hj]
  · have hj' : j < (s.set i s[j]).length := by simpa using hj
    have h1 := getElem_cons_set_perm s[j] s i hi
    have h2 := getElem_cons_set_perm s[i] (s.set i s[j]) j hj'
    have hb : (s.set i s[j])[j] = s[j] := by
      by_cases hij : i = j
      · subst hij
        simp
      · simp [List.getElem_set_ne hij]
    rw [hb] at h2
    exact (h2.trans h1).cons_inv

/-- The loop started at an index inside the slice (or at `0`) runs to the end
without a panic and leaves a permutation of the slice. -/
theorem shuffleLoop_perm {T : Type} (r : Nat → Nat) :
    ∀ (i : Nat) (s : List T), i < s.length ∨ i = 0 →
      ∃ s', shuffleLoop r i s = some s' ∧ s'.Perm s
  | 0, s, _ => ⟨s, rfl, List.Perm.refl s⟩
  | i + 1, s, h => by
    have hi : i + 1 < s.length := by omega
    have hj : r (i + 1) % (i + 2) < s.length :=
      lt_of_lt_of_le (Nat.mod_lt _ (by omega)) (by omega)
    obtain ⟨s1, hs1, hp1⟩ := swapAt_perm s (i + 1) (r (i + 1) % (i + 2)) hi hj
    have hlen : i < s1.length ∨ i = 0 := by
      left
      rw [hp1.length_eq]
      omega
    obtain ⟨s2, hs2, hp2⟩ := shuffleLoop_perm r i s1 hlen
    exact ⟨s2, by simp [shuffleLoop, hs1, hs2], hp2.trans hp1⟩

/-- The library shuffle over the whole slice returns a permutation of it. -/
theorem randShuffle_perm {T : Type} (r : Nat → Nat) (s : List T) :
    ∃ s', randShuffle r s.length s = some s' ∧ s'.Perm s := by
  unfold randShuffle
  apply shuffleLoop_perm
  omega

/-- Every outcome of `RandomUnique`: either the guard fired and the slice is
untouched, or `n` lies in `[0, len]` and the result is the first `n` elements
of a permutation of the slice. -/
theorem RandomUnique_cases {T : Type} (r : Nat → Nat) (s : List T) (n : Int)
    (out : Sampled T) (h : RandomUnique r s n = some out) :
    ((s.length : Int) < n ∧ out = { slice := s, result := none, err := some errTooMany }) ∨
      (0 ≤ n ∧ n ≤ (s.length : Int) ∧ ∃ s', s'.Perm s ∧
        out = { slice := s', result := some (s'.take n.toNat), err := none }) := by
  unfold RandomUnique at h
  by_cases hn : n > (s.length : Int)
  · left
    rw [if_pos hn] at h
    exact ⟨hn, (Option.some.inj h).symm⟩
  · right
    rw [if_neg hn] at h
    obtain ⟨s1, hs1, hp1⟩ := randShuffle_perm r s
    rw [hs1] at h
    simp only [sliceExpr] at h
    by_cases h0 : 0 ≤ n
    · have hle : n ≤ (s1.length : Int) := by
        rw [hp1.length_eq]
        omega
      rw [if_pos ⟨le_refl 0, h0, hle⟩] at h
      refine ⟨h0, by omega, s1, hp1, ?_⟩
      simpa using (Option.some.inj h).symm
    · rw [if_neg (fun hc => h0 hc.2.1)] at h
      exact Option.noConfusion h

/-- With `n` in `[0, len]` the call returns: no panic, no error, the first `n`
elements of a permutation of the slice. -/
theorem RandomUnique_ok {T : Type} (r : Nat → Nat) (s : List T) (n : Int)
    (h0 : 0 ≤ n) (hle : n ≤ (s.length : Int)) :
    ∃ s', s'.Perm s ∧ RandomUnique r s n =
      some { slice := s', result := some (s'.take n.toNat), err := none } := by
  obtain ⟨s1, hs1, hp1⟩ := randShuffle_perm r s
  refine ⟨s1, hp1, ?_⟩
  have hle1 : n ≤ (s1.length : Int) := by
    rw [hp1.length_eq]
    exact hle
  unfold RandomUnique
  rw [if_neg (by omega), hs1]
  simp only [sliceExpr]
  rw [if_pos ⟨le_refl 0, h0, hle1⟩]
  simp

/-! ## RandomUnique -/

/-- C4 (as stated, refuted): `n = -1` is an integer with `n ≤ len(s)` for the
slice `[1, 2, 3]`, and there the slice expression `slice[:n]` panics, so no
result is returned. -/
theorem RandomUnique_negative_n_panics :
    (-1 : Int) ≤ (([1, 2, 3] : List Nat).length : Int) ∧
      RandomUnique (fun _ => 0) ([1, 2, 3] : List Nat) (-1) = none := by
  decide

/-- C4 (amended): for every slice `s`, every integer `n` with
`0 ≤ n ≤ len(s)` and every outcome of the draws, `RandomUnique` returns without
a panic, with no error and with a result of exactly `n` elements. -/
theorem RandomUnique_returns_n_elements {T : Type} (r : Nat → Nat) (s : List T) (n : Int)
    (h0 : 0 ≤ n) (hle : n ≤ (s.length : Int)) :
    ∃ s' res, RandomUnique r s n = some { slice := s', result := some res, err := none } ∧
      (res.length : Int) = n := by
  obtain ⟨s1, hp1, h1⟩ := RandomUnique_ok r s n h0 hle
  refine ⟨s1, s1.take n.toNat, h1, ?_⟩
  rw [List.length_take, hp1.length_eq]
  omega

/-- Witness for C4 (amended): two elements sampled from `[1, 2, 3]`. -/
theorem RandomUnique_returns_n_elements_witness :
    ∃ s' res, RandomUnique (fun i => i) ([1, 2, 3] : List Nat) 2 =
        some { slice := s', result := some res, err := none } ∧
      (res.length : Int) = 2 :=
  RandomUnique_returns_n_elements (fun i => i) [1, 2, 3] 2 (by decide) (by decide)

/-- C5 (as stated, refuted): on the slice `[1, 1]` with `n = 2` the call
returns the result `[1, 1]`, in which the value `1` occurs twice. -/
theorem RandomUnique_repeats_value :
    (2 : Int) ≤ (([1, 1] : List Nat).length : Int) ∧
      RandomUnique (fun _ => 0) ([1, 1] : List Nat) 2 =
        some { slice := [1, 1], result := some [1, 1], err := none } ∧
      ¬ ([1, 1] : List Nat).Nodup := by
  decide

/-- C5 (amended): when the elements of `s` are pairwise distinct, every result
`RandomUnique` returns, for every `n` and every outcome of the draws, has
pairwise distinct elements. -/
theorem RandomUnique_nodup_of_nodup {T : Type} (r : Nat → Nat) (s : List T) (n : Int)
    (out : Sampled T) (res : List T) (hs : s.Nodup)
    (hout : RandomUnique r s n = some out) (hres : out.result = some res) :
    res.Nodup := by
  rcases RandomUnique_cases r s n out hout with ⟨_, ho⟩ | ⟨_, _, s1, hp1, ho⟩
  · subst ho
    exact Option.noConfusion hres
  · subst ho
    have hr : s1.take n.toNat = res := Option.some.inj hres
    rw [← hr]
    exact (hp1.nodup_iff.mpr hs).sublist (List.take_sublist _ _)

/-- Witness for C5 (amended): sampling two elements of `[1, 2, 3]` with the
draws `r i = i + 1` (swap `2, 0`, then swap `1, 0`) gives `[2, 3]`. -/
theorem RandomUnique_nodup_of_nodup_witness :
    ([1, 2, 3] : List Nat).Nodup ∧
      RandomUnique (fun i => i + 1) ([1, 2, 3] : List Nat) 2 =
        some { slice := [2, 3, 1], result := some [2, 3], err := none } ∧
      ([2, 3] : List Nat).Nodup :=
  ⟨by decide, by decide,
    RandomUnique_nodup_of_nodup (fun i => i + 1) [1, 2, 3] 2
      { slice := [2, 3, 1], result := some [2, 3], err := none } [2, 3]
      (by decide) (by decide) rfl⟩

/-- C6: when `n > len(s)` the call returns, without a panic, the error value
and a nil result (the slice is left as it was); and whenever the call returns
an error value, `n > len(s)`. -/
theorem RandomUnique_error_iff_too_many {T : Type} (r : Nat → Nat) (s : List T) (n : Int) :
    ((s.length : Int) < n →
        RandomUnique r s n = some { slice := s, result := none, err := some errTooMany }) ∧
      (∀ out, RandomUnique r s n = some out → out.err ≠ none → (s.length : Int) < n) := by
  constructor
  · intro hn
    unfold RandomUnique
    rw [if_pos hn]
  · intro out hout herr
    rcases RandomUnique_cases r s n out hout with ⟨hn, _⟩ | ⟨_, _, s1, _, ho⟩
    · exact hn
    · subst ho
      exact absurd rfl herr

/-- Witness for C6: four elements asked of `[1, 2, 3]`. -/
theorem RandomUnique_error_iff_too_many_witness :
    RandomUnique (fun i => i) ([1, 2, 3] : List Nat) 4 =
        some { slice := [1, 2, 3], result := none, err := some errTooMany } ∧
      (([1, 2, 3] : List Nat).length : Int) < 4 :=
  ⟨(RandomUnique_error_iff_too_many (fun i => i) [1, 2, 3] 4).1 (by decide),
    (RandomUnique_error_iff_too_many (fun i => i) [1, 2, 3] 4).2
      { slice := [1, 2, 3], result := none, err := some errTooMany }
      (by decide) (by decide)⟩

/-! ## Shuffle -/

/-- C10: for every slice and every sequence of draws, `Shuffle` runs to the
end without a panic and leaves a slice of the same length with the same
multiset of elements: a permutation of the slice before the call. -/
theorem Shuffle_perm {T : Type} (r : Nat → Nat) (s : List T) :
    ∃ s', Shuffle r s = some s' ∧ s'.length = s.length ∧
      (s' : Multiset T) = (s : Multiset T) ∧ s'.Perm s := by
  have h : s.length - 1 < s.length ∨ s.length - 1 = 0 := by omega
  obtain ⟨s1, hs1, hp1⟩ := shuffleLoop_perm r (s.length - 1) s h
  exact ⟨s1, hs1, hp1.length_eq, Multiset.coe_eq_coe.mpr hp1, hp1⟩

/-! ## Filter -/

/-- Storing at `idx` extends the written prefix of the buffer by one element. -/
theorem take_succ_set {T : Type} (v : T) :
    ∀ (f : List T) (idx : Nat), idx < f.length →
      (f.set idx v).take (idx + 1) = f.take idx ++ [v]
  | [], _, h => absurd h (Nat.not_lt_zero _)
  | _ :: _, 0, _ => by simp
  | b :: t, k + 1, h => by
    have hk : k < t.length := by simpa using h
    simp [take_succ_set v t k hk]

/-- Loop invariant of `Filter`: with room for the remaining elements the loop
never stores out of range, and the written prefix grows by the remaining
elements that satisfy `fn`, in order. -/
theorem filterLoop_spec {T : Type} (fn : T → Bool) :
    ∀ (rest filtered : List T) (idx : Nat), idx + rest.length ≤ filtered.length →
      ∃ f' idx', filterLoop fn rest filtered idx = some (f', idx') ∧
        idx' ≤ f'.length ∧ f'.take idx' = filtered.take idx ++ rest.filter fn
  | [], filtered, idx, h => ⟨filtered, idx, rfl, by simpa using h, by simp⟩
  | v :: rest, filtered, idx, h => by
    have hlen : idx + rest.length + 1 ≤ filtered.length := by simpa [Nat.add_assoc] using h
    by_cases hv : fn v = true
    · have hidx : idx < filtered.length := by omega
      have hroom : idx + 1 + rest.length ≤ (filtered.set idx v).length := by
        rw [List.length_set]
        omega
      obtain ⟨f', idx', hrun, hle, htake⟩ :=
        filterLoop_spec fn rest (filtered.set idx v) (idx + 1) hroom
      refine ⟨f', idx', ?_, hle, ?_⟩
      · simp [filterLoop, hv, hidx, hrun]
      · rw [htake, take_succ_set v filtered idx hidx, List.filter_cons_of_pos hv]
        simp
    · have hroom : idx + rest.length ≤ filtered.length := by omega
      obtain ⟨f', idx', hrun, hle, htake⟩ := filterLoop_spec fn rest filtered idx hroom
      refine ⟨f', idx', ?_, hle, ?_⟩
      · simp [filterLoop, hv, hrun]
      · rw [htake, List.filter_cons_of_neg hv]

/-- `Filter` returns, without a panic, the elements satisfying `fn` in order. -/
theorem Filter_eq_filter {T : Type} (zero : T) (s : List T) (fn : T → Bool) :
    Filter zero s fn = some (s.filter fn) := by
  have hroom : 0 + s.length ≤ (List.replicate s.length zero).length := by simp
  obtain ⟨f', idx', hrun, hle, htake⟩ :=
    filterLoop_spec fn s (List.replicate s.length zero) 0 hroom
  unfold Filter
  rw [hrun]
  simp only [sliceExpr]
  have hcond : (0 : Int) ≤ 0 ∧ (0 : Int) ≤ (idx' : Int) ∧ (idx' : Int) ≤ (f'.length : Int) :=
    ⟨le_refl 0, by omega, by omega⟩
  rw [if_pos hcond]
  simpa using htake

/-- C9: for every slice `s` and predicate `p` (and whatever the zero value the
buffer is filled with), `Filter` returns exactly the elements of `s` that
satisfy `p`, in their original relative order: the result is a sub-sequence of
`s`, its length is the number of elements of `s` satisfying `p` (so nothing of
the zero-filled buffer is left at the end), every element of it satisfies `p`,
and it is empty when `s` is empty. -/
theorem Filter_exact {T : Type} (zero : T) (s : List T) (p : T → Bool) :
    ∃ res, Filter zero s p = some res ∧ res = s.filter p ∧ res.Sublist s ∧
      res.length = s.countP p ∧ (∀ x ∈ res, p x = true) ∧
      (∀ x, x ∈ s → p x = true → x ∈ res) ∧
      Filter zero ([] : List T) p = some [] := by
  refine ⟨s.filter p, Filter_eq_filter zero s p, rfl, List.filter_sublist s, ?_, ?_, ?_, ?_⟩
  · rw [List.countP_eq_length_filter]
  · intro x hx
    exact (List.mem_filter.mp hx).2
  · intro x hx hp
    exact List.mem_filter.mpr ⟨hx, hp⟩
  · simpa using Filter_eq_filter zero ([] : List T) p

/-! ## Deduplicate -/

/-- The loop appends to `result` the first occurrences of the values of the
rest of the slice that are not yet in `seen`. -/
theorem dedupLoop_eq {T : Type} [DecidableEq T] :
    ∀ (rest seen result : List T),
      dedupLoop rest seen result =
        result ++ (firstOccurrences rest).filter (fun y => decide (y ∉ seen))
  | [], _, result => by simp [dedupLoop, firstOccurrences]
  | v :: rest, seen, result => by
    by_cases hv : v ∈ seen
    · have hdrop : ∀ l : List T,
          (v :: l).filter (fun y => decide (y ∉ seen)) =
            l.filter (fun y => decide (y ∉ seen)) := by
        intro l
        simp [List.filter_cons, hv]
      simp only [dedupLoop, if_pos hv, firstOccurrences]
      rw [dedupLoop_eq rest seen result, hdrop, List.filter_filter]
      congr 1
      refine List.filter_congr (fun y _ => ?_)
      by_cases hy : y ∈ seen
      · simp [hy]
      · have : y ≠ v := fun h => hy (h ▸ hv)
        simp [hy, this]
    · have hkeep : ∀ l : List T,
          (v :: l).filter (fun y => decide (y ∉ seen)) =
            v :: l.filter (fun y => decide (y ∉ seen)) := by
        intro l
        simp [List.filter_cons, hv]
      simp only [dedupLoop, if_neg hv, firstOccurrences]
      rw [dedupLoop_eq rest (v :: seen) (result ++ [v]), hkeep,
        List.filter_filter, List.append_assoc, List.singleton_append]
      congr 2
      refine List.filter_congr (fun y _ => ?_)
      by_cases hy : y ∈ seen <;> by_cases hyv : y = v <;> simp [hy, hyv]

/-- `Deduplicate` computes the first occurrences of the specification. -/
theorem Deduplicate_eq_firstOccurrences {T : Type} [DecidableEq T] (s : List T) :
    Deduplicate s = firstOccurrences s := by
  simp [Deduplicate, dedupLoop_eq]

/-- The first occurrences hold exactly the values of the slice. -/
theorem mem_firstOccurrences {T : Type} [DecidableEq T] (x : T) :
    ∀ s : List T, x ∈ firstOccurrences s ↔ x ∈ s
  | [] => by simp [firstOccurrences]
  | a :: s => by
    by_cases hxa : x = a
    · simp [firstOccurrences, hxa]
    · simp [firstOccurrences, hxa, List.mem_filter, mem_firstOccurrences x s]

/-- No value is repeated among the first occurrences. -/
theorem nodup_firstOccurrences {T : Type} [DecidableEq T] :
    ∀ s : List T, (firstOccurrences s).Nodup
  | [] => by simp [firstOccurrences]
  | a :: s => by
    simp only [firstOccurrences, List.nodup_cons]
    refine ⟨?_, (nodup_firstOccurrences s).filter _⟩
    simp [List.mem_filter]

/-- Filtering keeps the relative order of the first positions of two values
that pass the filter. -/
theorem indexOf_filter_lt_iff {T : Type} [DecidableEq T] (p : T → Bool) (x y : T)
    (hx : p x = true) (hy : p y = true) :
    ∀ l : List T, (l.filter p).indexOf x < (l.filter p).indexOf y ↔
      l.indexOf x < l.indexOf y
  | [] => by simp
  | b :: l => by
    have ih := indexOf_filter_lt_iff p x y hx hy l
    by_cases hb : p b = true
    · rw [List.filter_cons_of_pos hb]
      by_cases hxb : b = x <;> by_cases hyb : b = y
      · simp [List.indexOf_cons_eq _ hxb, List.indexOf_cons_eq _ hyb]
      · simp [List.indexOf_cons_eq _ hxb, List.indexOf_cons_ne _ hyb]
      · simp [List.indexOf_cons_ne _ hxb, List.indexOf_cons_eq _ hyb]
      · simp [List.indexOf_cons_ne _ hxb, List.indexOf_cons_ne _ hyb, ih]
    · rw [List.filter_cons_of_neg hb]
      have hxb : b ≠ x := fun h => hb (h ▸ hx)
      have hyb : b ≠ y := fun h => hb (h ▸ hy)
      simp [List.indexOf_cons_ne _ hxb, List.indexOf_cons_ne _ hyb, ih]

/-- Two values stand among the first occurrences in the order of their first
positions in the slice. -/
theorem indexOf_firstOccurrences_lt_iff {T : Type} [DecidableEq T] (x y : T) :
    ∀ s : List T, (firstOccurrences s).indexOf x < (firstOccurrences s).indexOf y ↔
      s.indexOf x < s.indexOf y
  | [] => by simp [firstOccurrences]
  | a :: s => by
    have ih := indexOf_firstOccurrences_lt_iff x y s
    simp only [firstOccurrences]
    by_cases hxa : a = x <;> by_cases hya : a = y
    · simp [List.indexOf_cons_eq _ hxa, List.indexOf_cons_eq _ hya]
    · simp [List.indexOf_cons_eq _ hxa, List.indexOf_cons_ne _ hya]
    · simp [List.indexOf_cons_ne _ hxa, List.indexOf_cons_eq _ hya]
    · have hx : (fun z => decide (z ≠ a)) x = true := by
        simpa using fun h => hxa h.symm
      have hy : (fun z => decide (z ≠ a)) y = true := by
        simpa using fun h => hya h.symm
      have hf := indexOf_filter_lt_iff (fun z => decide (z ≠ a)) x y hx hy (firstOccurrences s)
      simp only [List.indexOf_cons_ne _ hxa, List.indexOf_cons_ne _ hya, Nat.succ_lt_succ_iff]
      exact hf.trans ih

/-- C7: for every slice `s` of comparable elements, `Deduplicate s` holds the
distinct values of `s`, each exactly once, in the order of their first
occurrence: no value is repeated, a value is in the result iff it is in `s`
(and then occurs there exactly once), and the first position of `x` in the
result is before that of `y` iff the first position of `x` in `s` is before
that of `y`.  The empty slice gives the empty result and `[1, 2, 2, 3, 1]`
gives `[1, 2, 3]`. -/
theorem Deduplicate_first_occurrences {T : Type} [DecidableEq T] (s : List T) :
    (Deduplicate s).Nodup ∧
      (∀ x, x ∈ Deduplicate s ↔ x ∈ s) ∧
      (∀ x, x ∈ s → (Deduplicate s).count x = 1) ∧
      (∀ x y, (Deduplicate s).indexOf x < (Deduplicate s).indexOf y ↔
        s.indexOf x < s.indexOf y) ∧
      Deduplicate ([] : List T) = [] ∧
      Deduplicate [1, 2, 2, 3, 1] = [1, 2, 3] := by
  rw [Deduplicate_eq_firstOccurrences]
  refine ⟨nodup_firstOccurrences s, fun x => mem_firstOccurrences x s, ?_,
    fun x y => indexOf_firstOccurrences_lt_iff x y s, rfl, by decide⟩
  intro x hx
  exact List.count_eq_one_of_mem (nodup_firstOccurrences s) ((mem_firstOccurrences x s).mpr hx)

/-! ## CountDuplicates -/

/-- The second loop adds to the counter the number of entries whose count
exceeds one. -/
theorem countOver_eq {T : Type} :
    ∀ (es : List (T × Nat)) (d : Nat),
      countOver es d = d + es.countP (fun e => decide (1 < e.2))
  | [], d => by simp [countOver]
  | (k, c) :: es, d => by
    by_cases hc : 1 < c
    · simp [countOver, hc, countOver_eq es (d + 1), List.countP_cons]
      omega
    · simp [countOver, hc, countOver_eq es d, List.countP_cons]

/-- Processing one more element at the end is one more `counts[value]++`. -/
theorem buildCounts_append_singleton {T : Type} [DecidableEq T] (v : T) :
    ∀ (s : List T) (m : List (T × Nat)),
      buildCounts (s ++ [v]) m = incr v (buildCounts s m)
  | [], m => by simp [buildCounts]
  | a :: s, m => by
    simp [buildCounts, buildCounts_append_singleton v s (incr a m)]

/-- A value met again adds no first occurrence; a new value adds itself at the
end. -/
theorem firstOccurrences_append_singleton {T : Type} [DecidableEq T] (v : T) :
    ∀ s : List T, firstOccurrences (s ++ [v]) =
      if v ∈ s then firstOccurrences s else firstOccurrences s ++ [v]
  | [] => by simp [firstOccurrences]
  | a :: s => by
    have ih := firstOccurrences_append_singleton v s
    rw [List.cons_append]
    simp only [firstOccurrences]
    rw [ih]
    by_cases hva : v = a
    · subst hva
      by_cases hvs : v ∈ s <;> simp [hvs, List.filter_append]
    · by_cases hvs : v ∈ s <;> simp [hvs, hva, List.filter_append]

/-- On a map without an entry for `v` the increment creates the entry
`(v, 1)` at the end. -/
theorem incr_map_of_not_mem {T : Type} [DecidableEq T] (v : T) (g : T → Nat) :
    ∀ l : List T, v ∉ l →
      incr v (l.map (fun k => (k, g k))) = l.map (fun k => (k, g k)) ++ [(v, 1)]
  | [], _ => by simp [incr]
  | a :: t, h => by
    have hav : a ≠ v := fun e => h (by simp [e])
    have hvt : v ∉ t := fun e => h (by simp [e])
    simp [incr, hav, incr_map_of_not_mem v g t hvt]

/-- On a map with one entry per key, one of them for `v`, the increment adds
one to the count of `v` and changes nothing else. -/
theorem incr_map_of_mem {T : Type} [DecidableEq T] (v : T) (g : T → Nat) :
    ∀ l : List T, l.Nodup → v ∈ l →
      incr v (l.map (fun k => (k, g k))) =
        l.map (fun k => (k, if k = v then g k + 1 else g k))
  | [], _, h => by simp at h
  | a :: t, hnd, h => by
    have hat : a ∉ t := (List.nodup_cons.mp hnd).1
    by_cases hav : a = v
    · subst hav
      have hrest : t.map (fun k => (k, g k)) =
          t.map (fun k => (k, if k = a then g k + 1 else g k)) := by
        refine List.map_congr_left (fun k hk => ?_)
        have : k ≠ a := fun e => hat (e ▸ hk)
        simp [this]
      simp [incr, hrest]
    · have hvt : v ∈ t := by
        rcases List.mem_cons.mp h with e | e
        · exact absurd e.symm hav
        · exact e
      simp [incr, hav, incr_map_of_mem v g t (List.nodup_cons.mp hnd).2 hvt]

/-- The frequency map built by the first loop: one entry per distinct value,
in the order of first occurrence, holding the number of its occurrences. -/
theorem buildCounts_eq {T : Type} [DecidableEq T] (s : List T) :
    buildCounts s [] = (firstOccurrences s).map (fun k => (k, s.count k)) := by
  induction s using List.reverseRecOn with
  | nil => simp [buildCounts, firstOccurrences]
  | append_singleton l v ih =>
    rw [buildCounts_append_singleton, ih, firstOccurrences_append_singleton]
    by_cases hv : v ∈ l
    · rw [if_pos hv, incr_map_of_mem v _ _ (nodup_firstOccurrences l)
        ((mem_firstOccurrences v l).mpr hv)]
      refine List.map_congr_left (fun k _ => ?_)
      by_cases hk : k = v
      · subst hk
        simp
      · have hk' : v ≠ k := fun e => hk e.symm
        simp [hk, hk', List.count_singleton']
    · have hv' : v ∉ firstOccurrences l := fun e => hv ((mem_firstOccurrences v l).mp e)
      rw [if_neg hv, incr_map_of_not_mem v _ _ hv', List.map_append]
      congr 1
      · refine List.map_congr_left (fun k hk => ?_)
        have hkv : v ≠ k := fun e => hv' (e ▸ hk)
        simp [hkv, List.count_singleton']
      · simp [List.count_eq_zero_of_not_mem hv]

/-- The entries with a count above one are the distinct values occurring at
least twice. -/
theorem countP_buildCounts {T : Type} [DecidableEq T] (s : List T) :
    (buildCounts s []).countP (fun e => decide (1 < e.2)) =
      (s.toFinset.filter (fun x => 2 ≤ s.count x)).card := by
  have hfin : s.toFinset.filter (fun x => 2 ≤ s.count x) =
      ((firstOccurrences s).filter (fun x => decide (2 ≤ s.count x))).toFinset := by
    ext x
    simp [mem_firstOccurrences]
  rw [hfin, List.toFinset_card_of_nodup ((nodup_firstOccurrences s).filter _),
    buildCounts_eq, List.countP_map, List.countP_eq_length_filter]
  congr 1

/-- C8: for every slice `s` of comparable elements, `CountDuplicates s` is the
number of distinct values that occur at least twice in `s`, and the second loop
gives that same number in whatever order it visits the entries of the
frequency map.  It is `2` for `[1, 1, 1, 2, 2, 3]` (neither the `3` surplus
occurrences nor the `6` elements) and `2` for `[1, 2, 2, 3, 1]`. -/
theorem CountDuplicates_counts_repeated_values {T : Type} [DecidableEq T] (s : List T) :
    CountDuplicates s = (s.toFinset.filter (fun x => 2 ≤ s.count x)).card ∧
      (∀ es : List (T × Nat), es.Perm (buildCounts s []) →
        countOver es 0 = (s.toFinset.filter (fun x => 2 ≤ s.count x)).card) ∧
      CountDuplicates [1, 1, 1, 2, 2, 3] = 2 ∧
      CountDuplicates [1, 2, 2, 3, 1] = 2 := by
  refine ⟨?_, ?_, by decide, by decide⟩
  · rw [CountDuplicates, countOver_eq, Nat.zero_add, countP_buildCounts]
  · intro es hes
    rw [countOver_eq, Nat.zero_add, hes.countP_eq, countP_buildCounts]

/-- Witness for C8: the map of `[1, 2, 2, 3, 1]` visited in the order
`3, 2, 1`. -/
theorem CountDuplicates_counts_repeated_values_witness :
    List.Perm [(3, 1), (2, 2), (1, 2)] (buildCounts [1, 2, 2, 3, 1] []) ∧
      countOver [(3, 1), (2, 2), (1, 2)] 0 =
        (([1, 2, 2, 3, 1] : List Nat).toFinset.filter
          (fun x => 2 ≤ ([1, 2, 2, 3, 1] : List Nat).count x)).card :=
  ⟨by decide,
    (CountDuplicates_counts_repeated_values [1, 2, 2, 3, 1]).2.1
      [(3, 1), (2, 2), (1, 2)] (by decide)⟩

/-! ## SafeSlice with a non-negative end -/

/-- With `end ≥ 0` the slice expression is in range and cuts `s` from the
clamped start to the clamped end. -/
theorem SafeSlice_eq_some {T : Type} (s : List T) (start «end» : Int) (hend : 0 ≤ «end») :
    SafeSlice s start «end» =
      some ((s.drop (max start 0).toNat).take
        ((min «end» (s.length : Int)).toNat - (max start 0).toNat)) := by
  unfold SafeSlice sliceExpr
  simp only []
  by_cases h1 : start < 0 <;> by_cases h2 : «end» > (s.length : Int)
  · have ha : max start 0 = 0 := by omega
    have he : min «end» (s.length : Int) = (s.length : Int) := by omega
    simp only [if_pos h1, if_pos h2, ha, he]
    have h3 : ¬ ((0 : Int) > (s.length : Int)) := by omega
    rw [if_neg h3, if_pos ⟨le_refl 0, by omega, le_refl _⟩]
  · have ha : max start 0 = 0 := by omega
    have he : min «end» (s.length : Int) = «end» := by omega
    simp only [if_pos h1, if_neg h2, ha, he]
    have h3 : ¬ ((0 : Int) > «end») := by omega
    rw [if_neg h3, if_pos ⟨le_refl 0, hend, by omega⟩]
  · have ha : max start 0 = start := by omega
    have he : min «end» (s.length : Int) = (s.length : Int) := by omega
    simp only [if_neg h1, if_pos h2, ha, he]
    by_cases h3 : start > (s.length : Int)
    · rw [if_pos h3, if_pos ⟨by omega, le_refl _, le_refl _⟩]
      have hz : (s.length : Int).toNat - start.toNat = 0 := by omega
      simp only [hz, List.take_zero, Nat.sub_self]
    · rw [if_neg h3, if_pos ⟨by omega, by omega, le_refl _⟩]
  · have ha : max start 0 = start := by omega
    have he : min «end» (s.length : Int) = «end» := by omega
    simp only [if_neg h1, if_neg h2, ha, he]
    by_cases h3 : start > «end»
    · rw [if_pos h3, if_pos ⟨hend, le_refl _, by omega⟩]
      have hz : «end».toNat - start.toNat = 0 := by omega
      simp [hz]
    · rw [if_neg h3, if_pos ⟨by omega, by omega, by omega⟩]

/-- C11: for every slice `s` and integers `start`, `end` with `end ≥ 0`,
`SafeSlice` returns exactly the elements of `s` at the indices `i` with
`max(start, 0) ≤ i < min(end, len(s))`, in order; the length of the result is
`max(0, min(end, len(s)) - max(start, 0))`, it is empty when the clamped start
is not below the clamped end, and it is the whole of `s` when `start ≤ 0` and
`end ≥ len(s)` (so `start = -5`, `end = 1000000` on `[1, 2, 3]` gives all three
elements). -/
theorem SafeSlice_clamped {T : Type} (s : List T) (start «end» : Int) (hend : 0 ≤ «end») :
    ∃ res, SafeSlice s start «end» = some res ∧
      (res.length : Int) = max 0 (min «end» (s.length : Int) - max start 0) ∧
      (∀ k, k < res.length → res[k]? = s[(max start 0).toNat + k]?) ∧
      (min «end» (s.length : Int) ≤ max start 0 → res = []) ∧
      (start ≤ 0 → (s.length : Int) ≤ «end» → res = s) ∧
      SafeSlice [1, 2, 3] (-5) 1000000 = some [1, 2, 3] := by
  refine ⟨_, SafeSlice_eq_some s start «end» hend, ?_, ?_, ?_, ?_, by decide⟩
  · rw [List.length_take, List.length_drop]
    omega
  · intro k hk
    rw [List.length_take] at hk
    rw [List.getElem?_take_of_lt (lt_of_lt_of_le hk (Nat.min_le_left _ _)), List.getElem?_drop]
  · intro h
    have hz : (min «end» (s.length : Int)).toNat - (max start 0).toNat = 0 := by omega
    simp [hz]
  · intro h1 h2
    have ha : (max start 0).toNat = 0 := by omega
    have he : (min «end» (s.length : Int)).toNat = s.length := by omega
    simp [ha, he]

/-- Witness for C11: `start = 1`, `end = 2` on `[1, 2, 3]`. -/
theorem SafeSlice_clamped_witness :
    ∃ res, SafeSlice ([1, 2, 3] : List Nat) 1 2 = some res ∧
      (res.length : Int) = max 0 (min 2 ((([1, 2, 3] : List Nat).length : Nat) : Int) - max 1 0) ∧
      (∀ k, k < res.length → res[k]? = ([1, 2, 3] : List Nat)[(max (1 : Int) 0).toNat + k]?) ∧
      (min 2 ((([1, 2, 3] : List Nat).length : Nat) : Int) ≤ max 1 0 → res = []) ∧
      ((1 : Int) ≤ 0 → ((([1, 2, 3] : List Nat).length : Nat) : Int) ≤ 2 → res = [1, 2, 3]) ∧
      SafeSlice [1, 2, 3] (-5) 1000000 = some [1, 2, 3] :=
  SafeSlice_clamped [1, 2, 3] 1 2 (by decide)

/-! ## RandomUnique: the slice after the call -/

/-- C12: for every slice `s`, every `n` with `0 ≤ n ≤ len(s)` and every outcome
of the draws, `RandomUnique` leaves in `s` a permutation of its original
elements (same length, same multiset) and returns exactly the first `n`
elements of the reordered slice; every returned element is an element of the
original `s`, and the multiset of returned elements is contained in that of
`s`. -/
theorem RandomUnique_prefix_of_perm {T : Type} (r : Nat → Nat) (s : List T) (n : Int)
    (h0 : 0 ≤ n) (hle : n ≤ (s.length : Int)) :
    ∃ s', RandomUnique r s n =
        some { slice := s', result := some (s'.take n.toNat), err := none } ∧
      s'.Perm s ∧ s'.length = s.length ∧ (s' : Multiset T) = (s : Multiset T) ∧
      (∀ x ∈ s'.take n.toNat, x ∈ s) ∧
      ((s'.take n.toNat : List T) : Multiset T) ≤ (s : Multiset T) := by
  obtain ⟨s1, hp1, h1⟩ := RandomUnique_ok r s n h0 hle
  refine ⟨s1, h1, hp1, hp1.length_eq, Multiset.coe_eq_coe.mpr hp1, ?_, ?_⟩
  · intro x hx
    exact hp1.subset (List.mem_of_mem_take hx)
  · rw [← Multiset.coe_eq_coe.mpr hp1]
    exact Multiset.coe_le.mpr (List.take_sublist _ _).subperm

/-- Witness for C12: two elements sampled from `[1, 2, 3]`. -/
theorem RandomUnique_prefix_of_perm_witness :
    ∃ s', RandomUnique (fun i => i + 1) ([1, 2, 3] : List Nat) 2 =
        some { slice := s', result := some (s'.take (2 : Int).toNat), err := none } ∧
      s'.Perm [1, 2, 3] ∧ s'.length = ([1, 2, 3] : List Nat).length ∧
      (s' : Multiset Nat) = (([1, 2, 3] : List Nat) : Multiset Nat) ∧
      (∀ x ∈ s'.take (2 : Int).toNat, x ∈ ([1, 2, 3] : List Nat)) ∧
      ((s'.take (2 : Int).toNat : List Nat) : Multiset Nat) ≤
        (([1, 2, 3] : List Nat) : Multiset Nat) :=
  RandomUnique_prefix_of_perm (fun i => i + 1) [1, 2, 3] 2 (by decide) (by decide)

/-- C18: for every slice `s` and every `n > len(s)`, `RandomUnique` returns the
error with the slice exactly as it was, and the outcome is the same for every
generator (no draw is made); whereas a call that succeeds reorders the slice
in place, as on `[1, 2, 3]` with `n = 2`. -/
theorem RandomUnique_failure_atomic {T : Type} (s : List T) (n : Int)
    (hn : (s.length : Int) < n) :
    (∀ r, RandomUnique r s n =
        some { slice := s, result := none, err := some errTooMany }) ∧
      (∀ r r', RandomUnique r s n = RandomUnique r' s n) ∧
      (∃ out, RandomUnique (fun i => i + 1) ([1, 2, 3] : List Nat) 2 = some out ∧
        out.err = none ∧ out.slice ≠ [1, 2, 3]) := by
  have hall : ∀ r, RandomUnique r s n =
      some { slice := s, result := none, err := some errTooMany } := by
    intro r
    unfold RandomUnique
    rw [if_pos hn]
  refine ⟨hall, fun r r' => (hall r).trans (hall r').symm, ?_⟩
  exact ⟨{ slice := [2, 3, 1], result := some [2, 3], err := none }, by decide, rfl, by decide⟩

/-- Witness for C18: four elements asked of `[1, 2, 3]`. -/
theorem RandomUnique_failure_atomic_witness :
    (∀ r, RandomUnique r ([1, 2, 3] : List Nat) 4 =
        some { slice := [1, 2, 3], result := none, err := some errTooMany }) ∧
      (∀ r r', RandomUnique r ([1, 2, 3] : List Nat) 4 =
        RandomUnique r' ([1, 2, 3] : List Nat) 4) ∧
      (∃ out, RandomUnique (fun i => i + 1) ([1, 2, 3] : List Nat) 2 = some out ∧
        out.err = none ∧ out.slice ≠ [1, 2, 3]) :=
  RandomUnique_failure_atomic [1, 2, 3] 4 (by decide)

/-! ## ForEach -/

/-- Loop invariant of `ForEach`: with `done` already overwritten and `rest`
still to visit, the loop ends without a panic in `done ++ rest.map fn`, having
called `fn` on the elements of `rest`, in order. -/
theorem forEachCalls_append {T : Type} (fn : T → T) :
    ∀ rest done : List T,
      forEachCalls fn rest.length done.length (done ++ rest) =
        some (done ++ rest.map fn, rest)
  | [], done => by simp [forEachCalls]
  | v :: t, done => by
    have ih := forEachCalls_append fn t (done ++ [fn v])
    have hlen : (done ++ [fn v]).length = done.length + 1 := by simp
    rw [hlen] at ih
    have hget : (done ++ v :: t)[done.length]? = some v := by
      rw [List.getElem?_append_right (le_refl _)]
      simp
    have hset : (done ++ v :: t).set done.length (fn v) = (done ++ [fn v]) ++ t := by simp
    simp only [List.length_cons, forEachCalls, hget, hset, ih]
    simp

/-- The plain loop gives the slice of the loop that writes down the calls. -/
theorem forEachLoop_eq_calls {T : Type} (fn : T → T) :
    ∀ (k i : Nat) (s : List T),
      forEachLoop fn k i s = (forEachCalls fn k i s).map Prod.fst
  | 0, _, _ => by simp [forEachLoop, forEachCalls]
  | k + 1, i, s => by
    unfold forEachLoop forEachCalls
    cases hg : s[i]? with
    | none => simp
    | some v =>
      simp only [forEachLoop_eq_calls fn k (i + 1) (s.set i (fn v))]
      cases forEachCalls fn k (i + 1) (s.set i (fn v)) with
      | none => simp
      | some pr => simp

/-- `ForEach` ends without a panic in the slice mapped through `fn`. -/
theorem ForEach_eq_map {T : Type} (s : List T) (fn : T → T) :
    ForEach s fn = some (s.map fn) := by
  have h := forEachCalls_append fn s []
  simp only [List.length_nil, List.nil_append] at h
  rw [ForEach, forEachLoop_eq_calls, h]
  rfl

/-- C13: for every slice `s` and total `fn`, `ForEach` ends with a slice of the
same length whose element at every index `i` is `fn` applied to the original
element at `i`; `fn` is called on the original elements, each once and in
index order; with the identity function the slice is unchanged. -/
theorem ForEach_maps_in_place {T : Type} (s : List T) (fn : T → T) :
    ∃ s', ForEach s fn = some s' ∧ s'.length = s.length ∧
      (∀ i : Nat, s'[i]? = (s[i]?).map fn) ∧
      forEachCalls fn s.length 0 s = some (s', s) ∧
      ForEach s (fun x => x) = some s := by
  refine ⟨s.map fn, ForEach_eq_map s fn, List.length_map s fn, ?_, ?_, ?_⟩
  · intro i
    exact List.getElem?_map fn s i
  · simpa using forEachCalls_append fn s []
  · simpa using ForEach_eq_map s (fun x => x)

/-! ## Some -/

/-- The plain loop of `Some` gives the answer of the loop that writes down the
calls. -/
theorem SomeCalls_fst {T : Type} (fn : T → Bool) :
    ∀ s : List T, (SomeCalls s fn).1 = Some s fn
  | [] => rfl
  | v :: rest => by
    by_cases hv : fn v = true
    · simp [SomeCalls, Some, hv]
    · simp [SomeCalls, Some, hv, SomeCalls_fst fn rest]

/-- `Some` is `true` exactly when `fn` holds somewhere in the slice. -/
theorem Some_eq_true_iff {T : Type} (fn : T → Bool) :
    ∀ s : List T, Some s fn = true ↔ ∃ x ∈ s, fn x = true
  | [] => by simp [Some]
  | v :: rest => by
    by_cases hv : fn v = true
    · simp [Some, hv]
    · simp [Some, hv, Some_eq_true_iff fn rest]

/-- The calls of `Some` are an initial part of the slice on which `fn` fails
everywhere but at the last call, and the whole slice when the answer is
`false`. -/
theorem SomeCalls_snd {T : Type} (fn : T → Bool) :
    ∀ s : List T, (SomeCalls s fn).2 <+: s ∧
      (∀ x ∈ (SomeCalls s fn).2.dropLast, fn x = false) ∧
      (Some s fn = true → ∃ x, (SomeCalls s fn).2.getLast? = some x ∧ fn x = true) ∧
      (Some s fn = false → (SomeCalls s fn).2 = s)
  | [] => by simp [SomeCalls, Some]
  | v :: rest => by
    obtain ⟨hpre, hfail, hlast, hall⟩ := SomeCalls_snd fn rest
    by_cases hv : fn v = true
    · simp [SomeCalls, Some, hv, List.prefix_cons_inj]
    · have hvf : fn v = false := by simpa using hv
      simp only [SomeCalls, Some, hvf, Bool.false_eq_true, if_false]
      refine ⟨(List.prefix_cons_inj v).mpr hpre, ?_, ?_, ?_⟩
      · intro x hx
        cases hc : (SomeCalls rest fn).2 with
        | nil => simp [hc] at hx
        | cons c cs =>
          rw [hc, List.dropLast_cons₂] at hx
          rcases List.mem_cons.mp hx with e | e
          · rw [e]
            exact hvf
          · exact hfail x (by rw [hc]; exact e)
      · intro ht
        obtain ⟨x, hx, hpx⟩ := hlast ht
        refine ⟨x, ?_, hpx⟩
        cases hc : (SomeCalls rest fn).2 with
        | nil => simp [hc] at hx
        | cons c cs =>
          rw [hc] at hx
          simpa [List.getLast?_cons_cons] using hx
      · intro hf
        rw [hall hf]

/-- C14: for every slice `s` and predicate `p`, `Some s p` is `true` iff at
least one element of `s` satisfies `p`, and `false` on the empty slice; `p` is
called on an initial part of `s` that ends at the first element satisfying
`p`: every call but the last is on an element failing `p`, and when there is a
satisfying element the last call is on one. -/
theorem Some_iff_exists_short_circuit {T : Type} (s : List T) (p : T → Bool) :
    (Some s p = true ↔ ∃ x ∈ s, p x = true) ∧
      Some ([] : List T) p = false ∧
      (SomeCalls s p).1 = Some s p ∧
      (SomeCalls s p).2 <+: s ∧
      (∀ x ∈ (SomeCalls s p).2.dropLast, p x = false) ∧
      (Some s p = true → ∃ x, (SomeCalls s p).2.getLast? = some x ∧ p x = true) ∧
      (Some s p = false → (SomeCalls s p).2 = s) :=
  ⟨Some_eq_true_iff p s, rfl, SomeCalls_fst p s, SomeCalls_snd p s⟩

/-- C17: the identity `Some(s, p) == !Every(s, x -> !p(x))` fails for this
`Every`: on `[1]` with `p x = (x == 1)` the left side is `true` and the right
side is `false`. -/
theorem Some_ne_not_Every_not :
    ∃ (s : List Nat) (p : Nat → Bool), Some s p ≠ !Every s (fun x => !p x) :=
  ⟨[1], fun x => x == 1, by decide⟩

/-! ## Deduplicate, CountDuplicates and Filter together -/

/-- A slice without repeats is its own list of first occurrences. -/
theorem firstOccurrences_of_nodup {T : Type} [DecidableEq T] :
    ∀ l : List T, l.Nodup → firstOccurrences l = l
  | [], _ => rfl
  | a :: l, h => by
    have ha : a ∉ l := (List.nodup_cons.mp h).1
    have hl := firstOccurrences_of_nodup l (List.nodup_cons.mp h).2
    simp only [firstOccurrences, hl]
    congr 1
    refine List.filter_eq_self.mpr (fun y hy => ?_)
    have : y ≠ a := fun e => ha (e ▸ hy)
    simpa using this

/-- The first occurrences are a sub-sequence of the slice. -/
theorem firstOccurrences_sublist {T : Type} [DecidableEq T] :
    ∀ s : List T, (firstOccurrences s).Sublist s
  | [] => List.Sublist.refl _
  | a :: s => by
    simp only [firstOccurrences]
    exact ((List.filter_sublist _).trans (firstOccurrences_sublist s)).cons₂ a

/-- Nothing is dropped exactly when the slice has no repeats. -/
theorem length_firstOccurrences_eq_iff {T : Type} [DecidableEq T] (s : List T) :
    (firstOccurrences s).length = s.length ↔ s.Nodup := by
  constructor
  · intro h
    have he : firstOccurrences s = s := (firstOccurrences_sublist s).eq_of_length h
    rw [← he]
    exact nodup_firstOccurrences s
  · intro h
    rw [firstOccurrences_of_nodup s h]

/-- No value is counted exactly when the slice has no repeats. -/
theorem CountDuplicates_eq_zero_iff {T : Type} [DecidableEq T] (s : List T) :
    CountDuplicates s = 0 ↔ s.Nodup := by
  rw [CountDuplicates, countOver_eq, Nat.zero_add, countP_buildCounts, Finset.card_eq_zero,
    Finset.filter_eq_empty_iff, List.nodup_iff_count_le_one]
  constructor
  · intro h a
    by_cases ha : a ∈ s
    · have := h (List.mem_toFinset.mpr ha)
      omega
    · rw [List.count_eq_zero_of_not_mem ha]
      exact Nat.zero_le 1
  · intro h a _
    have := h a
    omega

/-- Taking first occurrences commutes with filtering. -/
theorem firstOccurrences_filter {T : Type} [DecidableEq T] (p : T → Bool) :
    ∀ s : List T, firstOccurrences (s.filter p) = (firstOccurrences s).filter p
  | [] => rfl
  | a :: s => by
    have ih := firstOccurrences_filter p s
    by_cases ha : p a = true
    · rw [List.filter_cons_of_pos ha]
      simp only [firstOccurrences]
      rw [List.filter_cons_of_pos ha, ih, List.filter_filter, List.filter_filter]
      congr 1
      refine List.filter_congr (fun y _ => ?_)
      exact Bool.and_comm _ _
    · rw [List.filter_cons_of_neg ha]
      simp only [firstOccurrences]
      rw [List.filter_cons_of_neg ha, ih, List.filter_filter]
      refine List.filter_congr (fun y _ => ?_)
      by_cases hy : p y = true
      · have : y ≠ a := fun e => ha (e ▸ hy)
        simp [hy, this]
      · simp [hy]

/-- C15: `Deduplicate` is idempotent: for every slice `s` of comparable
elements, `Deduplicate (Deduplicate s) = Deduplicate s`. -/
theorem Deduplicate_idempotent {T : Type} [DecidableEq T] (s : List T) :
    Deduplicate (Deduplicate s) = Deduplicate s := by
  rw [Deduplicate_eq_firstOccurrences (Deduplicate s), Deduplicate_eq_firstOccurrences s]
  exact firstOccurrences_of_nodup _ (nodup_firstOccurrences s)

/-- C19: for every slice `s` of comparable elements, `CountDuplicates s = 0`
iff `Deduplicate s` has the length of `s`, which holds iff `Deduplicate s` is
`s` itself; and `CountDuplicates (Deduplicate s) = 0`. -/
theorem CountDuplicates_zero_iff_Deduplicate_same {T : Type} [DecidableEq T] (s : List T) :
    (CountDuplicates s = 0 ↔ (Deduplicate s).length = s.length) ∧
      ((Deduplicate s).length = s.length ↔ Deduplicate s = s) ∧
      CountDuplicates (Deduplicate s) = 0 := by
  rw [Deduplicate_eq_firstOccurrences]
  refine ⟨?_, ?_, ?_⟩
  · rw [CountDuplicates_eq_zero_iff, length_firstOccurrences_eq_iff]
  · constructor
    · intro h
      exact (firstOccurrences_sublist s).eq_of_length h
    · intro h
      rw [h]
  · exact (CountDuplicates_eq_zero_iff _).mpr (nodup_firstOccurrences s)

/-- C20: for every slice `s` of comparable elements and every predicate `p`,
both `Filter` calls return, and `Deduplicate (Filter s p)` is the same
sequence as `Filter (Deduplicate s) p`. -/
theorem Deduplicate_Filter_comm {T : Type} [DecidableEq T] (zero : T) (s : List T)
    (p : T → Bool) :
    ∃ f1 f2, Filter zero s p = some f1 ∧ Filter zero (Deduplicate s) p = some f2 ∧
      Deduplicate f1 = f2 := by
  refine ⟨s.filter p, (Deduplicate s).filter p, Filter_eq_filter zero s p,
    Filter_eq_filter zero (Deduplicate s) p, ?_⟩
  rw [Deduplicate_eq_firstOccurrences, Deduplicate_eq_firstOccurrences]
  exact firstOccurrences_filter p s

/-! ## Shuffle: draw vectors and orderings -/

/-- An in-range swap, spelled out. -/
theorem swapAt_eq {T : Type} (s : List T) (i j : Nat) (hi : i < s.length)
    (hj : j < s.length) : swapAt s i j = some ((s.set i s[j]).set j s[i]) := by
  simp [swapAt, List.getElem?_eq_getElem hi, List.getElem?_eq_getElem hj]

/-- A swap inside an initial part of the slice leaves the rest alone. -/
theorem swapAt_append {T : Type} (a b : List T) (i j : Nat) (hi : i < a.length)
    (hj : j < a.length) : swapAt (a ++ b) i j = (swapAt a i j).map (fun l => l ++ b) := by
  have hi' : i < (a ++ b).length := by
    rw [List.length_append]
    omega
  have hj' : j < (a ++ b).length := by
    rw [List.length_append]
    omega
  rw [swapAt_eq a i j hi hj, swapAt_eq (a ++ b) i j hi' hj']
  have hj2 : j < (a.set i a[j]).length := by
    rw [List.length_set]
    exact hj
  simp only [Option.map_some', List.getElem_append_left hi, List.getElem_append_left hj,
    List.set_append_left i _ hi, List.set_append_left j _ hj2]

/-- The loop started inside an initial part of the slice leaves the rest
alone. -/
theorem shuffleLoop_append {T : Type} (r : Nat → Nat) (b : List T) :
    ∀ (i : Nat) (a : List T), i < a.length →
      shuffleLoop r i (a ++ b) = (shuffleLoop r i a).map (fun l => l ++ b)
  | 0, a, _ => by simp [shuffleLoop]
  | i + 1, a, h => by
    have hj : r (i + 1) % (i + 2) < a.length :=
      lt_of_lt_of_le (Nat.mod_lt _ (by omega)) (by omega)
    obtain ⟨a1, ha1, hp1⟩ := swapAt_perm a (i + 1) (r (i + 1) % (i + 2)) h hj
    have hlen : i < a1.length := by
      rw [hp1.length_eq]
      omega
    simp only [shuffleLoop, swapAt_append a b _ _ h hj, ha1, Option.map_some']
    exact shuffleLoop_append r b i a1 hlen

/-- The loop started at `i` only looks at the draws made at the indices
`1, ..., i`. -/
theorem shuffleLoop_congr {T : Type} (r r' : Nat → Nat) :
    ∀ (i : Nat) (s : List T),
      (∀ k, 1 ≤ k → k ≤ i → r k % (k + 1) = r' k % (k + 1)) →
      shuffleLoop r i s = shuffleLoop r' i s
  | 0, _, _ => rfl
  | i + 1, s, h => by
    have hd : r (i + 1) % (i + 2) = r' (i + 1) % (i + 2) := h (i + 1) (by omega) (le_refl _)
    have hrest : ∀ s1 : List T, shuffleLoop r i s1 = shuffleLoop r' i s1 := fun s1 =>
      shuffleLoop_congr r r' i s1 (fun k h1 h2 => h k h1 (by omega))
    simp only [shuffleLoop, hd, hrest]

/-- The first swap of the loop on a slice of length `i + 2`: the drawn element
goes to the last position, in front of it stays a slice of length `i + 1`. -/
theorem swapAt_last {T : Type} (s : List T) (i j : Nat) (hlen : s.length = i + 2)
    (hj : j < s.length) :
    ∃ p : List T, p.length = i + 1 ∧ swapAt s (i + 1) j = some (p ++ [s[j]]) ∧
      (p ++ [s[j]]).Perm s := by
  have hi : i + 1 < s.length := by omega
  obtain ⟨s1, hs1, hp1⟩ := swapAt_perm s (i + 1) j hi hj
  have hlen1 : s1.length = i + 2 := by rw [hp1.length_eq, hlen]
  have hi1 : i + 1 < s1.length := by omega
  have hval : s1[i + 1] = s[j] := by
    have he : s1 = (s.set (i + 1) s[j]).set j s[i + 1] := by
      have h2 := swapAt_eq s (i + 1) j hi hj
      rw [hs1] at h2
      exact Option.some.inj h2
    subst he
    by_cases hji : j = i + 1
    · subst hji
      simp
    · rw [List.getElem_set_ne hji]
      simp
  have hsplit : s1 = s1.take (i + 1) ++ [s[j]] := by
    conv_lhs => rw [← List.take_append_drop (i + 1) s1]
    rw [List.drop_eq_getElem_cons hi1, hval, List.drop_of_length_le (by omega)]
  refine ⟨s1.take (i + 1), ?_, ?_, ?_⟩
  · rw [List.length_take]
    omega
  · rw [← hsplit]
    exact hs1
  · rw [← hsplit]
    exact hp1

/-- One round of the loop on a slice of length `i + 2`: the drawn element is
fixed at the end and the loop goes on in front of it. -/
theorem shuffleLoop_succ {T : Type} (r : Nat → Nat) (s : List T) (i : Nat)
    (hlen : s.length = i + 2) :
    ∃ (p q : List T) (hj : r (i + 1) % (i + 2) < s.length),
      p.length = i + 1 ∧ swapAt s (i + 1) (r (i + 1) % (i + 2)) = some (p ++ [s[r (i + 1) % (i + 2)]]) ∧
      (p ++ [s[r (i + 1) % (i + 2)]]).Perm s ∧
      shuffleLoop r i p = some q ∧ q.length = i + 1 ∧
      shuffleLoop r (i + 1) s = some (q ++ [s[r (i + 1) % (i + 2)]]) := by
  have hj : r (i + 1) % (i + 2) < s.length :=
    lt_of_lt_of_le (Nat.mod_lt _ (by omega)) (by omega)
  obtain ⟨p, hp, hswap, hperm⟩ := swapAt_last s i _ hlen hj
  obtain ⟨q, hq, hqp⟩ := shuffleLoop_perm r i p (Or.inl (by omega))
  refine ⟨p, q, hj, hp, hswap, hperm, hq, by rw [hqp.length_eq, hp], ?_⟩
  simp only [shuffleLoop, hswap]
  rw [shuffleLoop_append r _ i p (by omega), hq]
  rfl

/-- Every ordering of the slice is reached by draws within their ranges. -/
theorem shuffleLoop_surj {T : Type} :
    ∀ (i : Nat) (s t : List T), s.length = i + 1 → t.Perm s →
      ∃ r : Nat → Nat, (∀ k, r k ≤ k) ∧ shuffleLoop r i s = some t
  | 0, s, t, hlen, hperm => by
    refine ⟨fun _ => 0, fun k => Nat.zero_le k, ?_⟩
    obtain ⟨x, hx⟩ := List.length_eq_one.mp hlen
    subst hx
    rw [List.perm_singleton.mp hperm]
    rfl
  | i + 1, s, t, hlen, hperm => by
    have htlen : t.length = i + 2 := by rw [hperm.length_eq, hlen]
    have htne : t ≠ [] := by
      intro e
      rw [e] at htlen
      simp at htlen
    have hsplit : t.dropLast ++ [t.getLast htne] = t := List.dropLast_append_getLast htne
    have hmem : t.getLast htne ∈ s := hperm.subset (List.getLast_mem htne)
    obtain ⟨j, hj, hsj⟩ := List.mem_iff_getElem.mp hmem
    obtain ⟨p, hp, hswap, hpp⟩ := swapAt_last s i j hlen hj
    have hpt : t.dropLast.Perm p := by
      have h1 : (t.dropLast ++ [t.getLast htne]).Perm (p ++ [s[j]]) := by
        rw [hsplit]
        exact hperm.trans hpp.symm
      rw [hsj] at h1
      exact (List.perm_append_right_iff _).mp h1
    obtain ⟨r0, hr0, hrun0⟩ := shuffleLoop_surj i p t.dropLast hp hpt
    refine ⟨Function.update r0 (i + 1) j, ?_, ?_⟩
    · intro k
      by_cases hk : k = i + 1
      · subst hk
        rw [Function.update_same]
        omega
      · rw [Function.update_noteq hk]
        exact hr0 k
    · have hdraw : Function.update r0 (i + 1) j (i + 1) % (i + 2) = j := by
        rw [Function.update_same]
        exact Nat.mod_eq_of_lt (by omega)
      have hrest : shuffleLoop (Function.update r0 (i + 1) j) i p = shuffleLoop r0 i p := by
        apply shuffleLoop_congr
        intro k _ hk
        rw [Function.update_noteq (by omega)]
      simp only [shuffleLoop, hdraw, hswap]
      rw [shuffleLoop_append _ _ i p (by omega), hrest, hrun0, hsj]
      simp only [Option.map_some']
      rw [hsplit]

/-- On a slice without repeats the ordering reached determines the draws. -/
theorem shuffleLoop_inj {T : Type} (r r' : Nat → Nat) :
    ∀ (i : Nat) (s : List T), s.length = i + 1 → s.Nodup →
      shuffleLoop r i s = shuffleLoop r' i s →
      ∀ k, 1 ≤ k → k ≤ i → r k % (k + 1) = r' k % (k + 1)
  | 0, _, _, _, _ => fun k h1 h2 => absurd h1 (by omega)
  | i + 1, s, hlen, hnd, heq => by
    obtain ⟨p, q, hj, hp, hswap, hperm, hq, hql, hrun⟩ := shuffleLoop_succ r s i hlen
    obtain ⟨p', q', hj', hp', hswap', hperm', hq', hql', hrun'⟩ := shuffleLoop_succ r' s i hlen
    rw [hrun, hrun'] at heq
    have hparts := List.append_inj' (Option.some.inj heq) rfl
    have hval : s[r (i + 1) % (i + 2)] = s[r' (i + 1) % (i + 2)] := by
      simpa using hparts.2
    have hdraw : r (i + 1) % (i + 2) = r' (i + 1) % (i + 2) :=
      (hnd.getElem_inj_iff).mp hval
    have hpp : p = p' := by
      have h1 : some (p ++ [s[r (i + 1) % (i + 2)]]) = some (p' ++ [s[r' (i + 1) % (i + 2)]]) := by
        rw [← hswap, ← hswap']
        simp only [hdraw]
      exact (List.append_inj' (Option.some.inj h1) rfl).1
    have hpnd : p.Nodup :=
      ((hperm.nodup_iff.mpr hnd).sublist (List.sublist_append_left _ _))
    have hrec : shuffleLoop r i p = shuffleLoop r' i p := by
      rw [hq, hpp, hq', hparts.1]
    have ih := shuffleLoop_inj r r' i p hp hpnd hrec
    intro k h1 h2
    by_cases hk : k = i + 1
    · subst hk
      exact hdraw
    · exact ih k h1 (by omega)

/-- The generator of a draw vector makes, at loop index `i + 1`, the draw
written in component `i`. -/
theorem toDraws_succ {n : Nat} (d : DrawVec n) (i : Fin (n - 1)) :
    toDraws d (i.val + 1) = (d i).val := by
  have h : 1 ≤ i.val + 1 ∧ i.val + 1 < n := ⟨by omega, by have := i.isLt; omega⟩
  unfold toDraws
  rw [dif_pos h]
  rfl

/-- The draws of a draw vector are within their ranges. -/
theorem toDraws_le {n : Nat} (d : DrawVec n) (k : Nat) : toDraws d k ≤ k := by
  unfold toDraws
  by_cases h : 1 ≤ k ∧ k < n
  · rw [dif_pos h]
    have := (d ⟨k - 1, by omega⟩).isLt
    simp only [] at this
    omega
  · rw [dif_neg h]
    exact Nat.zero_le k

/-- There are `n!` draw vectors for a slice of length `n`. -/
theorem card_DrawVec (n : Nat) : Fintype.card (DrawVec n) = n.factorial := by
  rw [Fintype.card_pi]
  simp only [Fintype.card_fin]
  rw [Fin.prod_univ_eq_prod_range (fun k => k + 2) (n - 1)]
  cases n with
  | zero => rfl
  | succ m =>
    have h := Finset.prod_range_succ' (fun k => k + 1) m
    rw [Finset.prod_range_add_one_eq_factorial] at h
    simpa using h.symm

/-- C16: for every slice `s` of `n` pairwise distinct elements, with the draw
at loop index `i` taken from `{0, ..., i}` for `i = n - 1` down to `1`:
every draw vector makes `Shuffle` end in an ordering of `s`, every ordering of
`s` is the outcome of exactly one draw vector, and there are `n!` draw
vectors. -/
theorem Shuffle_uniform {T : Type} (s : List T) (hs : s.Nodup) :
    (∀ d : DrawVec s.length, ∃ t, Shuffle (toDraws d) s = some t ∧ t.Perm s) ∧
      (∀ t : List T, t.Perm s → ∃! d : DrawVec s.length, Shuffle (toDraws d) s = some t) ∧
      Fintype.card (DrawVec s.length) = s.length.factorial := by
  refine ⟨?_, ?_, card_DrawVec s.length⟩
  · intro d
    exact shuffleLoop_perm (toDraws d) (s.length - 1) s (by omega)
  · intro t ht
    rcases Nat.eq_zero_or_pos s.length with h0 | hpos
    · have hs0 : s = [] := List.length_eq_zero.mp h0
      subst hs0
      have ht0 : t = [] := List.perm_nil.mp ht
      subst ht0
      refine ⟨fun i => absurd i.isLt (by simp), rfl, ?_⟩
      intro d _
      funext i
      exact absurd i.isLt (by simp)
    · have hlen : s.length = (s.length - 1) + 1 := by omega
      obtain ⟨r, hr, hrun⟩ := shuffleLoop_surj (s.length - 1) s t hlen ht
      refine ⟨fun i => ⟨r (i.val + 1), by have := hr (i.val + 1); omega⟩, ?_, ?_⟩
      · show Shuffle _ s = some t
        unfold Shuffle
        rw [← hrun]
        apply shuffleLoop_congr
        intro k h1 h2
        have hk : k - 1 < s.length - 1 := by omega
        have hsucc := toDraws_succ
          (fun i : Fin (s.length - 1) =>
            (⟨r (i.val + 1), by have := hr (i.val + 1); omega⟩ : Fin (i.val + 2)))
          ⟨k - 1, hk⟩
        have hk1 : k - 1 + 1 = k := by omega
        simp only [hk1] at hsucc
        rw [hsucc]
      · intro d hd
        have hsame : shuffleLoop (toDraws d) (s.length - 1) s = shuffleLoop r (s.length - 1) s := by
          rw [hrun]
          exact hd
        have hinj := shuffleLoop_inj (toDraws d) r (s.length - 1) s hlen hs hsame
        funext i
        apply Fin.ext
        have hi := i.isLt
        have h1 := hinj (i.val + 1) (by omega) (by omega)
        have hle := toDraws_le d (i.val + 1)
        have hrle := hr (i.val + 1)
        rw [Nat.mod_eq_of_lt (by omega), Nat.mod_eq_of_lt (by omega), toDraws_succ] at h1
        exact h1

/-- Witness for C16: the slice `[1, 2, 3]`. -/
theorem Shuffle_uniform_witness :
    (∀ d : DrawVec ([1, 2, 3] : List Nat).length,
        ∃ t, Shuffle (toDraws d) ([1, 2, 3] : List Nat) = some t ∧ t.Perm [1, 2, 3]) ∧
      (∀ t : List Nat, t.Perm [1, 2, 3] →
        ∃! d : DrawVec ([1, 2, 3] : List Nat).length,
          Shuffle (toDraws d) ([1, 2, 3] : List Nat) = some t) ∧
      Fintype.card (DrawVec ([1, 2, 3] : List Nat).length) =
        ([1, 2, 3] : List Nat).length.factorial :=
  Shuffle_uniform [1, 2, 3] (by decide)

end Arrtillery
